import Mathlib

/-!
# Verification of the kb_engine_playground ingestion chunking pipeline

Shallow embedding of the chunking / re-split / batching logic of
`src/ingestion/pipeline.py` and the language classifier of
`src/ingestion/store.py`, together with theorems settling the spec claims.

Python strings are modelled as `List Char` (a Python `str` is a sequence of
code points). Metadata dictionaries are modelled as association lists
`List (PyStr × PyStr)` (the spec's data model: string keys to scalar values).
-/

namespace KB

/-- A Python string, modelled as its sequence of characters. -/
abbrev PyStr := List Char

/-- The character class recognised by Python's `str.strip()` / `str.isspace()`
(ASCII part; the claims only distinguish whitespace from non-whitespace, so
the exact extent of the Unicode space class is immaterial here). -/
def pyIsSpace (c : Char) : Bool :=
  c = ' ' || c = '\t' || c = '\n' || c = '\r' || c = '\x0b' || c = '\x0c'

/-- Truthiness of `piece.strip()` in Python: the string contains at least one
non-whitespace character. -/
def stripTruthy (s : PyStr) : Bool :=
  s.any (fun c => !pyIsSpace c)

/-- Number of non-whitespace characters of a string. -/
def countNonSpace (s : PyStr) : Nat :=
  s.countP (fun c => !pyIsSpace c)

/-- The consecutive fixed-width slices `l[start : start + step]` for
`start in range(0, len(l), step)` (Python slicing with a positive step;
`range` with step 0 raises `ValueError` in Python, so every use below is
under `0 < step`). Used both by the oversize re-split (slices of a chunk's
text) and by the embed loop (batches of the chunk list). -/
def pySlices (l : List α) (step : Nat) : List (List α) :=
  ((List.range ((l.length + step - 1) / step)).map (· * step)).map
    (fun start => (l.drop start).take step)

/-- `langchain_core.documents.Document`, restricted to the fields the
pipeline uses: `page_content` and `metadata`. -/
structure Document where
  page_content : PyStr
  metadata : List (PyStr × PyStr)
deriving DecidableEq

/-- The per-chunk action of `_resplit_oversize_chunks` (pipeline.py lines
67-77): a chunk within the limit is kept as is; an oversize chunk is replaced
by its `max_chars`-wide slices, dropping any slice whose `strip()` is empty;
each kept slice carries the parent's metadata. -/
def resplitChunk (doc : Document) (max_chars : Nat) : List Document :=
  if doc.page_content.length ≤ max_chars then [doc]
  else
    ((pySlices doc.page_content max_chars).filter stripTruthy).map
      (fun piece => { page_content := piece, metadata := doc.metadata })

/-- `_resplit_oversize_chunks` (pipeline.py lines 57-77), translated
loop-for-loop: the Python function accumulates `result` over the chunks,
appending the chunk itself when `len(content) <= max_chars` and otherwise
appending every slice `content[start : start + max_chars]` whose `strip()`
is truthy. -/
def resplit_oversize_chunks (chunks : List Document) (max_chars : Nat) :
    List Document :=
  chunks.foldl
    (fun result doc =>
      if doc.page_content.length ≤ max_chars then result ++ [doc]
      else
        result ++
          ((pySlices doc.page_content max_chars).filter stripTruthy).map
            (fun piece => { page_content := piece, metadata := doc.metadata }))
    []

/-- The Step-4 invariant scan of `run_pipeline` (pipeline.py line 141):
`[i for i, d in enumerate(chunks) if len(d.page_content) > max_chars]`. -/
def oversizeIndices (chunks : List Document) (max_chars : Nat) : List Nat :=
  (chunks.enum.filter (fun p => decide (max_chars < p.2.page_content.length))).map
    Prod.fst

lemma pySlices_nil {α} (step : Nat) : pySlices ([] : List α) step = [] := by
  rcases Nat.eq_zero_or_pos step with h | h
  · simp [pySlices, h]
  · have h0 : (step - 1) / step = 0 := Nat.div_eq_of_lt (by omega)
    simp [pySlices, h0]

lemma pySlices_count {α} (l : List α) (step : Nat) :
    (pySlices l step).length = (l.length + step - 1) / step := by
  simp [pySlices]

lemma pySlices_cons {α} (l : List α) (step : Nat) (hstep : 0 < step)
    (hl : l ≠ []) :
    pySlices l step = l.take step :: pySlices (l.drop step) step := by
  have hn : 1 ≤ l.length := List.length_pos.mpr hl
  have hA : (l.length + step - 1) / step = (l.length - 1) / step + 1 := by
    have h1 : l.length + step - 1 = (l.length - 1) + step := by omega
    rw [h1, Nat.add_div_right _ hstep]
  have hB : (l.drop step).length + step - 1 = l.length - step + step - 1 := by
    simp [List.length_drop]
  have hC : (l.length - step + step - 1) / step = (l.length - 1) / step := by
    rcases Nat.le_total step l.length with h | h
    · congr 1; omega
    · have h0 : l.length - step = 0 := Nat.sub_eq_zero_of_le h
      rw [h0]
      rw [Nat.div_eq_of_lt (by omega), Nat.div_eq_of_lt (by omega)]
  unfold pySlices
  rw [hA, hB, hC, List.range_succ_eq_map]
  simp only [List.map_cons, List.map_map, Nat.zero_mul, List.drop_zero]
  refine congrArg _ ?_
  refine List.map_congr_left ?_
  intro i _
  simp only [Function.comp]
  have harith : i.succ * step = step + i * step := by
    simp [Nat.succ_mul, Nat.add_comm]
  rw [List.drop_drop, harith]

lemma pySlices_join {α} (step : Nat) (hstep : 0 < step) (l : List α) :
    (pySlices l step).flatten = l := by
  have main : ∀ n (l : List α), l.length ≤ n → (pySlices l step).flatten = l := by
    intro n
    induction n with
    | zero =>
      intro l hl
      have : l = [] := List.eq_nil_of_length_eq_zero (Nat.le_zero.mp hl)
      subst this
      simp [pySlices_nil]
    | succ n ih =>
      intro l hl
      rcases eq_or_ne l [] with rfl | hne
      · simp [pySlices_nil]
      · rw [pySlices_cons l step hstep hne]
        have hlen : (l.drop step).length ≤ n := by
          have h1 : 1 ≤ l.length := List.length_pos.mpr hne
          simp only [List.length_drop]
          omega
        rw [List.flatten_cons, ih (l.drop step) hlen, List.take_append_drop]
  exact main l.length l le_rfl

lemma mem_pySlices_length_le {α} {l : List α} {step : Nat} {p : List α}
    (hp : p ∈ pySlices l step) : p.length ≤ step := by
  simp only [pySlices, List.mem_map, List.mem_range] at hp
  obtain ⟨start, ⟨_, _⟩, rfl⟩ := hp
  exact List.length_take_le _ _

lemma pySlices_getElem {α} (l : List α) (step : Nat) (i : Nat)
    (h : i < (pySlices l step).length) :
    (pySlices l step).get ⟨i, h⟩ = (l.drop (i * step)).take step := by
  simp [pySlices]

/-- Length of the `i`-th slice: `min step (l.length - i·step)`. -/
lemma pySlices_getElem_length {α} (l : List α) (step : Nat) (i : Nat)
    (h : i < (pySlices l step).length) :
    ((pySlices l step).get ⟨i, h⟩).length = min step (l.length - i * step) := by
  rw [pySlices_getElem]
  simp [List.length_take, List.length_drop]

/-- Every slice except possibly the last has length exactly `step`. -/
lemma pySlices_getElem_length_of_not_last {α} (l : List α) (step : Nat)
    (hstep : 0 < step) (i : Nat) (h : i < (pySlices l step).length)
    (hlast : i + 1 < (pySlices l step).length) :
    ((pySlices l step).get ⟨i, h⟩).length = step := by
  rw [pySlices_getElem_length]
  have hk := pySlices_count l step
  have hn : 1 ≤ l.length := by
    by_contra hc
    have : l.length = 0 := by omega
    rw [hk, this] at hlast
    rw [Nat.div_eq_of_lt (by omega)] at hlast
    omega
  have hA : (l.length + step - 1) / step = (l.length - 1) / step + 1 := by
    have h1 : l.length + step - 1 = (l.length - 1) + step := by omega
    rw [h1, Nat.add_div_right _ hstep]
  have hipos : i + 1 ≤ (l.length - 1) / step := by
    rw [hk, hA] at hlast; omega
  have hmul : (i + 1) * step ≤ (l.length - 1) / step * step :=
    Nat.mul_le_mul_right _ hipos
  have hdm : (l.length - 1) / step * step ≤ l.length - 1 :=
    Nat.div_mul_le_self _ _
  have : (i + 1) * step ≤ l.length - 1 := le_trans hmul hdm
  have : i * step + step ≤ l.length - 1 := by
    rw [Nat.succ_mul] at this; exact this
  omega

/-- `foldl` with an appending body is `flatMap`. -/
lemma foldl_append_bind {α β} (f : List β → α → List β) (g : α → List β)
    (hf : ∀ r a, f r a = r ++ g a) :
    ∀ (l : List α) (acc : List β),
      l.foldl f acc = acc ++ l.flatMap g := by
  intro l
  induction l with
  | nil => intro acc; simp
  | cons a t ih => intro acc; simp [List.foldl_cons, hf, ih, List.append_assoc]

/-- The loop of `_resplit_oversize_chunks` is the flat-map of its per-chunk
action. -/
lemma resplit_oversize_chunks_eq_bind (chunks : List Document) (m : Nat) :
    resplit_oversize_chunks chunks m = chunks.flatMap (fun d => resplitChunk d m) := by
  unfold resplit_oversize_chunks
  have hbody : ∀ (result : List Document) (doc : Document),
      (if doc.page_content.length ≤ m then result ++ [doc]
       else result ++
         ((pySlices doc.page_content m).filter stripTruthy).map
           (fun piece => { page_content := piece, metadata := doc.metadata }))
      = result ++ resplitChunk doc m := by
    intro result doc
    unfold resplitChunk
    split <;> rfl
  rw [foldl_append_bind _ (fun d => resplitChunk d m) hbody chunks []]
  simp

/-- Every chunk produced by the per-chunk re-split action is within the
limit. -/
lemma resplitChunk_length_le (doc : Document) (m : Nat) :
    ∀ d ∈ resplitChunk doc m, d.page_content.length ≤ m := by
  intro d hd
  unfold resplitChunk at hd
  split at hd
  · next h =>
    simp only [List.mem_singleton] at hd
    subst hd; exact h
  · next h =>
    simp only [List.mem_map, List.mem_filter] at hd
    obtain ⟨p, ⟨hp, _⟩, rfl⟩ := hd
    exact mem_pySlices_length_le hp

/-- Every chunk in the output of `_resplit_oversize_chunks` is within the
limit. -/
lemma resplit_length_le (chunks : List Document) (m : Nat) :
    ∀ d ∈ resplit_oversize_chunks chunks m, d.page_content.length ≤ m := by
  intro d hd
  rw [resplit_oversize_chunks_eq_bind] at hd
  simp only [List.mem_flatMap] at hd
  obtain ⟨c, _, hc⟩ := hd
  exact resplitChunk_length_le c m d hc

/-- A compliant chunk passes through the per-chunk action unchanged. -/
lemma resplitChunk_of_le {doc : Document} {m : Nat}
    (h : doc.page_content.length ≤ m) : resplitChunk doc m = [doc] := by
  unfold resplitChunk
  simp [h]

/-- The invariant scan finds nothing iff every chunk is within the limit. -/
lemma oversizeIndices_eq_nil {chunks : List Document} {m : Nat}
    (h : ∀ d ∈ chunks, d.page_content.length ≤ m) :
    oversizeIndices chunks m = [] := by
  unfold oversizeIndices
  rw [List.filter_eq_nil_iff.mpr, List.map_nil]
  refine List.forall_mem_enum.mpr ?_
  intro i hi
  simp only [decide_eq_true_eq, not_lt]
  exact h _ (List.getElem_mem hi)

/-- A sequence of compliant chunks passes through the re-split unchanged. -/
lemma resplit_of_all_le {chunks : List Document} {m : Nat}
    (h : ∀ d ∈ chunks, d.page_content.length ≤ m) :
    resplit_oversize_chunks chunks m = chunks := by
  rw [resplit_oversize_chunks_eq_bind]
  induction chunks with
  | nil => simp
  | cons a t ih =>
    rw [List.flatMap_cons, resplitChunk_of_le (h a (by simp)),
      ih (fun d hd => h d (by simp [hd]))]
    rfl

/-- Dropping the whitespace-only slices does not change the total
non-whitespace character count. -/
lemma countNonSpace_flatten_filter (ps : List PyStr) :
    countNonSpace (ps.filter stripTruthy).flatten = countNonSpace ps.flatten := by
  induction ps with
  | nil => simp
  | cons p t ih =>
    by_cases hp : stripTruthy p
    · simp only [List.filter_cons, hp, if_true, List.flatten_cons]
      unfold countNonSpace at *
      rw [List.countP_append, List.countP_append, ih]
    · have h0 : countNonSpace p = 0 := by
        unfold countNonSpace
        rw [List.countP_eq_zero]
        intro c hc
        simp only [stripTruthy, List.any_eq_true, not_exists, not_and,
          Bool.not_eq_true] at hp
        simp [hp c hc]
      have hfilter : List.filter stripTruthy (p :: t) = List.filter stripTruthy t := by
        simp [List.filter_cons, hp]
      unfold countNonSpace at *
      rw [hfilter, List.flatten_cons, List.countP_append, ih, h0, Nat.zero_add]

/-! ## The batch embed-and-store driver (pipeline.py lines 154-179) -/

/-- `EMBED_BATCH_SIZE` (pipeline.py line 81). -/
def EMBED_BATCH_SIZE : Nat := 50

/-- Observable outcome of the embed-and-store loop: the 1-based batch numbers
for which `add_documents` was invoked, those for which it succeeded (whose
chunks remain stored — there is no rollback), and the surfaced failure
(batch number and underlying error), if any. -/
structure EmbedRun (ε : Type) where
  attempted : List Nat
  stored : List Nat
  err : Option (Nat × ε)
deriving DecidableEq

/-- The `for i in range(0, total, EMBED_BATCH_SIZE)` loop of `run_pipeline`,
over the batches paired with their 1-based batch numbers
(`batch_num = i // EMBED_BATCH_SIZE + 1`). `store` models the external
collaborator `vector_store.add_documents`: `none` is success, `some e` an
exception. On an exception the loop logs the batch number and re-raises, so
iteration stops: later batches are never attempted and earlier successes are
kept. -/
def embedBatches {ε} (store : Nat → List Document → Option ε) :
    List (Nat × List Document) → EmbedRun ε
  | [] => ⟨[], [], none⟩
  | (k, b) :: rest =>
    match store k b with
    | some e => ⟨[k], [], some (k, e)⟩
    | none =>
      let r := embedBatches store rest
      ⟨k :: r.attempted, k :: r.stored, r.err⟩

/-- The embed-and-store stage of `run_pipeline`: slice the chunk list into
`chunks[i : i + EMBED_BATCH_SIZE]` batches and run the loop. -/
def embedStoreLoop {ε} (store : Nat → List Document → Option ε)
    (chunks : List Document) : EmbedRun ε :=
  embedBatches store ((pySlices chunks EMBED_BATCH_SIZE).enumFrom 1)

/-- Errors `run_pipeline` can raise after loading: the Step-4
`AssertionError` (with the offending indices) and a re-raised exception from
an embed/store batch (with its 1-based batch number). -/
inductive PipelineError (ε : Type) where
  | assertionError (indices : List Nat)
  | batchError (batchNum : Nat) (e : ε)
deriving DecidableEq

/-- `run_pipeline` (pipeline.py lines 102-179) from the point where the
documents have been loaded: early return on an empty document list, Step 2
chunking (parametrized by `split`, the langchain splitter stage — see the
spec-modelled splitters below), Step 3 re-split, Step 4 invariant assertion,
then the batched embed-and-store loop. `.error` models an uncaught
exception. -/
def run_pipeline {ε} (split : List Document → List Document)
    (store : Nat → List Document → Option ε) (docs : List Document)
    (max_chars : Nat) : Except (PipelineError ε) (List Document × EmbedRun ε) :=
  if docs.isEmpty then .ok ([], ⟨[], [], none⟩)
  else
    let chunks := resplit_oversize_chunks (split docs) max_chars
    let ov := oversizeIndices chunks max_chars
    if ov.isEmpty then
      let r := embedStoreLoop store chunks
      match r.err with
      | some (k, e) => .error (.batchError k e)
      | none => .ok (chunks, r)
    else .error (.assertionError ov)

/-- If every batch succeeds, the loop attempts and stores each batch exactly
once, in order. -/
lemma embedBatches_all_ok {ε} (store : Nat → List Document → Option ε) :
    ∀ (bs : List (List Document)) (m : Nat),
      (∀ (j : Nat) (hj : j < bs.length), store (m + j) (bs.get ⟨j, hj⟩) = none) →
      embedBatches store (bs.enumFrom m)
        = ⟨List.range' m bs.length, List.range' m bs.length, none⟩ := by
  intro bs
  induction bs with
  | nil => intro m _; rfl
  | cons b t ih =>
    intro m hok
    have h0 : store m b = none := by
      have := hok 0 (by simp)
      simpa using this
    simp only [List.enumFrom, embedBatches, h0]
    rw [ih (m + 1) (fun j hj => by
      have := hok (j + 1) (by simpa using Nat.succ_lt_succ hj)
      simpa [Nat.add_assoc, Nat.add_comm 1 j] using this)]
    simp [List.range'_succ, List.length_cons]

/-- If the batches numbered `m..m+k-1` succeed and batch `m+k` fails with
`e`, the loop attempts exactly batches `m..m+k`, keeps `m..m+k-1` stored,
and surfaces `(m+k, e)`. -/
lemma embedBatches_first_fail {ε} (store : Nat → List Document → Option ε)
    (e : ε) :
    ∀ (bs : List (List Document)) (m k : Nat) (hk : k < bs.length),
      (∀ (j : Nat) (hj : j < bs.length), j < k → store (m + j) (bs.get ⟨j, hj⟩) = none) →
      store (m + k) (bs.get ⟨k, hk⟩) = some e →
      embedBatches store (bs.enumFrom m)
        = ⟨List.range' m (k + 1), List.range' m k, some (m + k, e)⟩ := by
  intro bs
  induction bs with
  | nil => intro m k hk; exact absurd hk (by simp)
  | cons b t ih =>
    intro m k hk hok hfail
    match k with
    | 0 =>
      have h0 : store m b = some e := by simpa using hfail
      simp [List.enumFrom, embedBatches, h0, List.range'_succ]
    | k + 1 =>
      have h0 : store m b = none := by
        have := hok 0 (by simp) (by omega)
        simpa using this
      have hk' : k < t.length := by simpa using Nat.lt_of_succ_lt_succ hk
      have hfail' : store (m + 1 + k) (t.get ⟨k, hk'⟩) = some e := by
        have : m + 1 + k = m + (k + 1) := by omega
        rw [this]
        simpa using hfail
      simp only [List.enumFrom, embedBatches, h0]
      rw [ih (m + 1) k hk' (fun j hj hjk => by
        have := hok (j + 1) (by simpa using Nat.succ_lt_succ hj) (by omega)
        simpa [Nat.add_assoc, Nat.add_comm 1 j] using this) hfail']
      have hnum : m + 1 + k = m + (k + 1) := by omega
      simp [List.range'_succ, hnum]

/-! ## Language classifier (store.py lines 78-93) -/

/-- The two languages `_EXT_TO_LANGUAGE` maps to (`langchain_text_splitters.Language`
values `MARKDOWN` and `RST`). -/
inductive Language where
  | markdown
  | rst
deriving DecidableEq

/-- `_EXT_TO_LANGUAGE` (store.py lines 78-82). -/
def EXT_TO_LANGUAGE : List (PyStr × Language) :=
  [(".md".toList, .markdown), (".markdown".toList, .markdown),
   (".rst".toList, .rst)]

/-- Python `s.strip()`: remove leading and trailing whitespace. -/
def pyStrip (s : PyStr) : PyStr :=
  ((s.dropWhile pyIsSpace).reverse.dropWhile pyIsSpace).reverse

/-- Python `s.lower()` (ASCII case mapping; the table's keys are ASCII). -/
def pyLower (s : PyStr) : PyStr :=
  s.map Char.toLower

/-- Python `s.rsplit(c, 1)[-1]`: the substring after the last occurrence of
`c` (the whole string if `c` does not occur; the caller guards on
occurrence). -/
def afterLast (c : Char) (s : PyStr) : PyStr :=
  (s.reverse.takeWhile (fun x => x != c)).reverse

/-- Python `s.split(c)[0]`: the prefix before the first occurrence of `c`. -/
def takeUntil (c : Char) (s : PyStr) : PyStr :=
  s.takeWhile (fun x => x != c)

/-- Python `(metadata.get(k) or "")`: the value at `k`, defaulting to the
empty string when the key is absent (or its value is the empty string —
`or` maps both to `""`). -/
def dictGetStr (m : List (PyStr × PyStr)) (k : String) : PyStr :=
  (m.lookup k.toList).getD []

/-- `get_language_from_metadata` (store.py lines 86-93), line for line:
`ext = (metadata.get("file_extension") or "").strip().lower()`; if falsy,
derive `"." + source.rsplit(".", 1)[-1].split("/")[0].split("?")[0].lower()`
from the stripped `source` when it contains a `.`; finally
`_EXT_TO_LANGUAGE.get(ext) if ext else None`. -/
def get_language_from_metadata (m : List (PyStr × PyStr)) : Option Language :=
  let ext0 := pyLower (pyStrip (dictGetStr m "file_extension"))
  let ext :=
    if ext0.isEmpty then
      if (pyStrip (dictGetStr m "source")).contains '.' then
        '.' :: pyLower (takeUntil '?' (takeUntil '/'
          (afterLast '.' (pyStrip (dictGetStr m "source")))))
      else ext0
    else ext0
  if ext.isEmpty then none else EXT_TO_LANGUAGE.lookup ext

/-- The classifier exactly as claim C8 words it: the `file_extension` field
is used whenever it is present and non-empty (as it stands, with no
normalisation — the claim names lower-casing only for the source-derived
branch); otherwise an extension is derived from `source` by taking the
substring after the last `.`, cutting it at the first `/` and `?`, and
lower-casing it; `.md`/`.markdown` map to Markdown, `.rst` to
RestructuredText, and every other case yields `none`. -/
def getLanguageClaimed (m : List (PyStr × PyStr)) : Option Language :=
  let fromSource :=
    let source := dictGetStr m "source"
    if source.contains '.' then
      EXT_TO_LANGUAGE.lookup
        ('.' :: pyLower ((afterLast '.' source).takeWhile
          (fun c => c != '/' && c != '?')))
    else none
  match m.lookup "file_extension".toList with
  | some fe => if fe.isEmpty then fromSource else EXT_TO_LANGUAGE.lookup fe
  | none => fromSource

/-- The classifier as the amended claim words it: the `file_extension` value
is first stripped of surrounding whitespace and lower-cased, and used when
the result is non-empty; otherwise an extension is derived from the stripped
`source` by taking the substring after the last `.`, cutting it at the first
`/` or `?`, lower-casing it and prefixing `.`; the same fixed table decides
the language, anything unmapped yielding `none`. -/
def getLanguageAmended (m : List (PyStr × PyStr)) : Option Language :=
  let fe := pyLower (pyStrip (dictGetStr m "file_extension"))
  if fe.isEmpty then
    let source := pyStrip (dictGetStr m "source")
    if source.contains '.' then
      EXT_TO_LANGUAGE.lookup
        ('.' :: pyLower ((afterLast '.' source).takeWhile
          (fun c => c != '/' && c != '?')))
    else none
  else EXT_TO_LANGUAGE.lookup fe

/-! ## Step 2: the splitter stage

The grouping and splitter dispatch live in the repository
(`_chunk_documents_with_language_awareness`, pipeline.py lines 34-54, and
`get_text_splitter_for_language` / `get_text_splitter`, store.py lines
62-110), but the splitters themselves are
`langchain_text_splitters.RecursiveCharacterTextSplitter` objects — library
code outside this repository. The splitting algorithm below is therefore
modelled from the spec (§4.2 Step 2). -/

/-- `sub` occurs as a contiguous subsequence of `l`. -/
def containsSeq (sub l : PyStr) : Bool :=
  l.tails.any (fun t => sub.isPrefixOf t)

/-- Python `text.split(sep)` for a non-empty `sep`: segments between
non-overlapping leftmost occurrences of `sep` (empty segments included). -/
def splitOnSeq (sep : PyStr) : PyStr → List PyStr
  | [] => [[]]
  | c :: rest =>
    if h : sep ≠ [] ∧ sep.isPrefixOf (c :: rest) then
      [] :: splitOnSeq sep ((c :: rest).drop sep.length)
    else
      match splitOnSeq sep rest with
      | [] => [[c]]
      | s :: ss => (c :: s) :: ss
termination_by l => l.length
decreasing_by
  · simp only [List.length_drop, List.length_cons]
    have : 1 ≤ sep.length := List.length_pos.mpr h.1
    omega
  · simp

/-- Modelled from the spec: the greedy packing half of the recursive
splitter — "greedily packing text up to `chunk_size` characters". Adjacent
segments are re-joined with the separator while the result stays within
`chunkSize`; a single segment longer than `chunkSize` stands alone (the
caller re-splits it with the remaining separators). The `chunk_overlap`
duplication of each chunk's tail into the next chunk is omitted: no claim
depends on it, and the one scenario proved against this stage (C4) contains
no separator at all, so packing never runs there. -/
def packPieces (chunkSize : Nat) (sep : PyStr) : List PyStr → PyStr → List PyStr
  | [], cur => if cur.isEmpty then [] else [cur]
  | p :: rest, cur =>
    let cand := if cur.isEmpty then p else cur ++ sep ++ p
    if cand.length ≤ chunkSize then packPieces chunkSize sep rest cand
    else if cur.isEmpty then p :: packPieces chunkSize sep rest []
    else cur :: packPieces chunkSize sep rest p

/-- Modelled from the spec (§4.2 Step 2): the recursive-separator splitting
algorithm. Try separators in priority order; the first one occurring in the
text drives the split, segments are greedily packed up to `chunk_size`, and
any piece still oversize is re-split with the remaining separators. An empty
separator is the character-level fallback (fixed-width slices). When no
separator matches — the spec's known limitation — the text is returned as a
single, possibly oversize, chunk. -/
def recursiveSplit (seps : List PyStr) (chunkSize : Nat) (text : PyStr) :
    List PyStr :=
  match seps with
  | [] => [text]
  | sep :: rest =>
    if sep.isEmpty then pySlices text chunkSize
    else if containsSeq sep text then
      (packPieces chunkSize sep (splitOnSeq sep text) []).flatMap
        (fun c => if chunkSize < c.length then recursiveSplit rest chunkSize c
                  else [c])
    else recursiveSplit rest chunkSize text

/-- Modelled from the spec: the Markdown separator priority list — "headers
before paragraphs before lines" (§4.2) — header marker, paragraph break,
line break, space. Unlike the default list it has no empty-string
character-level fallback, which is what makes the spec's known limitation
(one very long line can produce an oversize chunk, handled by Step 3)
possible. -/
def markdownSeparators : List PyStr :=
  ["\n# ".toList, "\n\n".toList, "\n".toList, " ".toList]

/-- Modelled from the spec: the RestructuredText separator priority list
(structural delimiter first, then paragraphs, lines, spaces). -/
def rstSeparators : List PyStr :=
  ["\n==".toList, "\n\n".toList, "\n".toList, " ".toList]

/-- The default splitter's separators (spec §4.2: paragraph break, line
break, space, empty string as character-level fallback; matches
`get_text_splitter`, store.py line 73). -/
def defaultSeparators : List PyStr :=
  ["\n\n".toList, "\n".toList, " ".toList, []]

/-- The splitter selected per group key (`get_text_splitter_for_language`,
store.py lines 96-110: a language-aware splitter for a `Language` key, the
default splitter otherwise), applied to one text. -/
def splitTextForLanguage (lang : Option Language) (chunkSize : Nat)
    (text : PyStr) : List PyStr :=
  match lang with
  | some .markdown => recursiveSplit markdownSeparators chunkSize text
  | some .rst => recursiveSplit rstSeparators chunkSize text
  | none => recursiveSplit defaultSeparators chunkSize text

/-- The group keys in first-occurrence order (Python dict insertion order in
`by_lang`). -/
def firstKeys : List (Option Language) → List (Option Language)
  | [] => []
  | k :: rest => k :: (firstKeys rest).filter (fun k2 => k2 != k)

/-- `_chunk_documents_with_language_awareness` (pipeline.py lines 34-54):
group the documents by classifier key (first-occurrence key order, original
document order within a group), pick the splitter per key, and concatenate
the splits. `split_documents` itself is langchain library code: per the
spec, each chunk of a document carries that document's metadata. -/
def chunk_documents_with_language_awareness (docs : List Document)
    (chunk_size : Nat) : List Document :=
  (firstKeys (docs.map (fun d => get_language_from_metadata d.metadata))).flatMap
    (fun key =>
      (docs.filter (fun d => get_language_from_metadata d.metadata == key)).flatMap
        (fun d => (splitTextForLanguage key chunk_size d.page_content).map
          (fun t => { page_content := t, metadata := d.metadata })))

/-! ## Metadata aliasing model (claim C2)

The re-split loop passes `doc.metadata` to the `Document` constructor
(pipeline.py line 76). Whether the new chunk shares that dict or owns a
copy is decided inside `langchain_core`'s `Document` constructor — library
code outside this repository. Per the spec's data model ("inherits the
parent's metadata by value (copy, not shared reference)"), construction is
modelled as allocating a fresh metadata cell holding the parent's key/value
pairs. To make aliasing observable, metadata dicts live in an explicit heap
and documents hold references into it. -/

/-- A heap of metadata dicts: an allocation bound and the cell contents. -/
structure Heap where
  next : Nat
  mem : Nat → List (PyStr × PyStr)

/-- A `Document` whose metadata field is a reference into the heap. -/
structure DocumentR where
  page_content : PyStr
  metadata : Nat
deriving DecidableEq

/-- Modelled from the spec: `Document(page_content=piece, metadata=doc.metadata)`
(pipeline.py line 76). The constructor is langchain library code; per the
spec's copy-by-value contract it validates the metadata mapping into a fresh
dict, so the new document owns its own cell holding the given key/value
pairs. -/
def mkDocumentR (h : Heap) (text : PyStr) (meta : List (PyStr × PyStr)) :
    DocumentR × Heap :=
  (⟨text, h.next⟩, ⟨h.next + 1, fun r => if r = h.next then meta else h.mem r⟩)

/-- `d[key] = v` on a dict value: replace the binding of `key`, or append
one. -/
def setKey (key v : PyStr) : List (PyStr × PyStr) → List (PyStr × PyStr)
  | [] => [(key, v)]
  | (k2, v2) :: rest =>
    if k2 = key then (key, v) :: rest else (k2, v2) :: setKey key v rest

/-- Mutation of the dict behind reference `r`: `heap[r][key] = v`. -/
def Heap.write (h : Heap) (r : Nat) (key v : PyStr) : Heap :=
  ⟨h.next, fun r2 => if r2 = r then setKey key v (h.mem r2) else h.mem r2⟩

/-- The slice loop of `_resplit_oversize_chunks` (pipeline.py lines 73-77)
in the heap model: every kept slice becomes a new `Document` built from the
parent's current metadata. -/
def resliceGo (parent : Nat) : List PyStr → Heap → List DocumentR × Heap
  | [], h => ([], h)
  | p :: ps, h =>
    if stripTruthy p then
      let dh := mkDocumentR h p (h.mem parent)
      let rest := resliceGo parent ps dh.2
      (dh.1 :: rest.1, rest.2)
    else resliceGo parent ps h

/-- Lines 72-77 of pipeline.py for one oversize chunk, in the heap model. -/
def resliceOversize (h : Heap) (doc : DocumentR) (max_chars : Nat) :
    List DocumentR × Heap :=
  resliceGo doc.metadata (pySlices doc.page_content max_chars) h

/-- Allocation invariants of the slice loop: the allocation bound grows,
pre-existing cells are untouched, every produced chunk's metadata reference
is fresh and holds the parent's pairs, and the produced references are
strictly increasing (hence pairwise distinct). -/
lemma resliceGo_spec (parent : Nat) :
    ∀ (ps : List PyStr) (h : Heap), parent < h.next →
      h.next ≤ (resliceGo parent ps h).2.next ∧
      (∀ r, r < h.next → (resliceGo parent ps h).2.mem r = h.mem r) ∧
      (∀ d ∈ (resliceGo parent ps h).1,
        h.next ≤ d.metadata ∧ d.metadata < (resliceGo parent ps h).2.next ∧
        (resliceGo parent ps h).2.mem d.metadata = h.mem parent) ∧
      (resliceGo parent ps h).1.Pairwise (fun a b => a.metadata < b.metadata) := by
  intro ps
  induction ps with
  | nil => intro h hp; simp [resliceGo]
  | cons p ps ih =>
    intro h hp
    by_cases hkeep : stripTruthy p
    · have hstep : (resliceGo parent (p :: ps) h)
          = ((mkDocumentR h p (h.mem parent)).1 ::
              (resliceGo parent ps (mkDocumentR h p (h.mem parent)).2).1,
             (resliceGo parent ps (mkDocumentR h p (h.mem parent)).2).2) := by
        simp [resliceGo, hkeep]
      set h2 : Heap := (mkDocumentR h p (h.mem parent)).2 with hh2
      have hnext2 : h2.next = h.next + 1 := rfl
      have hmem2 : ∀ r, r < h.next → h2.mem r = h.mem r := by
        intro r hr
        have : r ≠ h.next := by omega
        simp [hh2, mkDocumentR, this]
      have hmem2top : h2.mem h.next = h.mem parent := by
        simp [hh2, mkDocumentR]
      have hp2 : parent < h2.next := by omega
      obtain ⟨ihnext, ihmem, ihdocs, ihpw⟩ := ih h2 hp2
      rw [hstep]
      refine ⟨by simp only []; omega, ?_, ?_, ?_⟩
      · intro r hr
        simp only []
        rw [ihmem r (by omega), hmem2 r hr]
      · intro d hd
        simp only [List.mem_cons] at hd
        rcases hd with rfl | hd
        · refine ⟨le_refl _, ?_, ?_⟩
          · have : (mkDocumentR h p (h.mem parent)).1.metadata = h.next := rfl
            simp only [this]
            omega
          · have hmd : (mkDocumentR h p (h.mem parent)).1.metadata = h.next := rfl
            simp only [hmd]
            rw [ihmem h.next (by omega), hmem2top]
        · obtain ⟨hd1, hd2, hd3⟩ := ihdocs d hd
          refine ⟨by omega, hd2, ?_⟩
          rw [hd3, hmem2 parent hp]
      · refine List.pairwise_cons.mpr ⟨?_, ihpw⟩
        intro d hd
        have := (ihdocs d hd).1
        have hmd : (mkDocumentR h p (h.mem parent)).1.metadata = h.next := rfl
        simp only [hmd]
        omega
    · have hstep : resliceGo parent (p :: ps) h = resliceGo parent ps h := by
        simp [resliceGo, hkeep]
      rw [hstep]
      exact ih h hp

/-- Cutting at the first `/` and then at the first `?` is cutting at the
first of either. -/
lemma takeUntil_takeUntil (a b : Char) (l : PyStr) :
    takeUntil b (takeUntil a l) = l.takeWhile (fun c => c != a && c != b) := by
  induction l with
  | nil => rfl
  | cons c rest ih =>
    simp only [takeUntil, List.takeWhile_cons] at *
    cases hca : (c != a) with
    | false => simp [hca]
    | true =>
      cases hcb : (c != b) with
      | false => simp [hca, hcb]
      | true => simpa [hca, hcb] using ih

/-! ## The claims -/

/-- C1: for every chunk sequence and every `MAX_CHARS > 0`, after
`_resplit_oversize_chunks` every chunk's text length is ≤ `MAX_CHARS`; hence
the Step-4 invariant scan of `run_pipeline` finds no oversize chunk, and the
fatal `AssertionError` branch is unreachable for every splitter stage, store
collaborator and document list. -/
theorem C1_size_invariant {ε : Type} (chunks : List Document) (max_chars : Nat)
    (hmax : 0 < max_chars) :
    (∀ d ∈ resplit_oversize_chunks chunks max_chars,
      d.page_content.length ≤ max_chars) ∧
    oversizeIndices (resplit_oversize_chunks chunks max_chars) max_chars = [] ∧
    ∀ (splitf : List Document → List Document)
      (store : Nat → List Document → Option ε) (docs : List Document)
      (indices : List Nat),
      run_pipeline splitf store docs max_chars ≠
        Except.error (PipelineError.assertionError indices) := by
  refine ⟨resplit_length_le chunks max_chars,
    oversizeIndices_eq_nil (resplit_length_le chunks max_chars), ?_⟩
  intro splitf store docs indices
  cases docs with
  | nil => simp [run_pipeline]
  | cons d ds =>
    have hov : oversizeIndices
        (resplit_oversize_chunks (splitf (d :: ds)) max_chars) max_chars = [] :=
      oversizeIndices_eq_nil (resplit_length_le _ _)
    simp only [run_pipeline, List.isEmpty_cons, Bool.false_eq_true, if_false,
      hov, List.isEmpty_nil, if_true]
    cases herr : (embedStoreLoop store
        (resplit_oversize_chunks (splitf (d :: ds)) max_chars)).err with
    | none => simp [herr]
    | some ke => obtain ⟨k, e⟩ := ke; simp [herr]

/-- Witness for C1 at a concrete input. -/
theorem C1_size_invariant_witness :
    0 < 5 ∧
    oversizeIndices (resplit_oversize_chunks
      [{ page_content := "abcdefg".toList, metadata := [] }] 5) 5 = [] :=
  ⟨by decide, (C1_size_invariant (ε := Unit)
    [{ page_content := "abcdefg".toList, metadata := [] }] 5 (by decide)).2.1⟩

/-- C6: the re-split step is the identity on an already-compliant chunk
sequence, and (for a positive limit) applying it twice equals applying it
once. -/
theorem C6_resplit_identity (chunks : List Document) (max_chars : Nat) :
    ((∀ d ∈ chunks, d.page_content.length ≤ max_chars) →
      resplit_oversize_chunks chunks max_chars = chunks) ∧
    (0 < max_chars →
      resplit_oversize_chunks (resplit_oversize_chunks chunks max_chars)
          max_chars
        = resplit_oversize_chunks chunks max_chars) :=
  ⟨fun h => resplit_of_all_le h,
   fun _ => resplit_of_all_le (resplit_length_le chunks max_chars)⟩

/-- Witness for C6 at a concrete input. -/
theorem C6_resplit_identity_witness :
    resplit_oversize_chunks [{ page_content := "ab".toList, metadata := [] }] 3
      = [{ page_content := "ab".toList, metadata := [] }] ∧
    resplit_oversize_chunks
        (resplit_oversize_chunks
          [{ page_content := "ab".toList, metadata := [] }] 3) 3
      = resplit_oversize_chunks
          [{ page_content := "ab".toList, metadata := [] }] 3 :=
  ⟨(C6_resplit_identity _ 3).1 (by decide),
   (C6_resplit_identity [{ page_content := "ab".toList, metadata := [] }] 3).2
     (by decide)⟩

/-- C7: a slice cut from an oversize chunk is kept iff it contains a
non-whitespace character (dropped iff it strips to empty), and a chunk that
was not oversize is never dropped. -/
theorem C7_drop_iff_whitespace_only (doc : Document) (max_chars : Nat)
    (hmax : 0 < max_chars) :
    (doc.page_content.length ≤ max_chars →
      resplitChunk doc max_chars = [doc]) ∧
    (max_chars < doc.page_content.length →
      ∀ p ∈ pySlices doc.page_content max_chars,
        (∃ d ∈ resplitChunk doc max_chars, d.page_content = p) ↔
          stripTruthy p) := by
  constructor
  · exact fun h => resplitChunk_of_le h
  · intro hov p hp
    unfold resplitChunk
    rw [if_neg (not_le.mpr hov)]
    constructor
    · rintro ⟨d, hd, rfl⟩
      simp only [List.mem_map, List.mem_filter] at hd
      obtain ⟨q, ⟨_, hq2⟩, rfl⟩ := hd
      exact hq2
    · intro hkeep
      refine ⟨{ page_content := p, metadata := doc.metadata }, ?_, rfl⟩
      simp only [List.mem_map, List.mem_filter]
      exact ⟨p, ⟨hp, hkeep⟩, rfl⟩

/-- Witness for C7 at a concrete input (an all-whitespace slice of an
oversize chunk, and a compliant chunk). -/
theorem C7_drop_iff_whitespace_only_witness :
    ((∃ d ∈ resplitChunk { page_content := "a   b".toList, metadata := [] } 2,
        d.page_content = "  ".toList) ↔ stripTruthy "  ".toList) ∧
    resplitChunk { page_content := "ab".toList, metadata := [] } 2
      = [{ page_content := "ab".toList, metadata := [] }] :=
  ⟨(C7_drop_iff_whitespace_only
      { page_content := "a   b".toList, metadata := [] } 2 (by decide)).2
      (by decide) ("  ".toList) (by decide),
   (C7_drop_iff_whitespace_only
      { page_content := "ab".toList, metadata := [] } 2 (by decide)).1
      (by decide)⟩

/-- C9: with an empty document sequence, `run_pipeline` returns normally
with an empty chunk sequence and zero embed/store batch calls. -/
theorem C9_empty_documents {ε : Type}
    (splitf : List Document → List Document)
    (store : Nat → List Document → Option ε) (max_chars : Nat) :
    run_pipeline splitf store [] max_chars
      = Except.ok ([], ⟨[], [], none⟩) := rfl

/-- C10: the re-split step is the order-preserving flat-map of a per-chunk
function: a compliant chunk maps to itself, an oversize chunk to its kept
slices in increasing offset order. -/
theorem C10_resplit_is_flatMap (chunks : List Document) (max_chars : Nat)
    (hmax : 0 < max_chars) :
    resplit_oversize_chunks chunks max_chars
      = chunks.flatMap (fun d => resplitChunk d max_chars) ∧
    (∀ d : Document, d.page_content.length ≤ max_chars →
      resplitChunk d max_chars = [d]) ∧
    (∀ d : Document, max_chars < d.page_content.length →
      resplitChunk d max_chars
        = ((pySlices d.page_content max_chars).filter stripTruthy).map
            (fun p => { page_content := p, metadata := d.metadata })) := by
  refine ⟨resplit_oversize_chunks_eq_bind chunks max_chars,
    fun d h => resplitChunk_of_le h, fun d h => ?_⟩
  unfold resplitChunk
  rw [if_neg (not_le.mpr h)]

/-- Witness for C10 at a concrete input. -/
theorem C10_resplit_is_flatMap_witness :
    resplit_oversize_chunks
        [{ page_content := "abc".toList, metadata := [] },
         { page_content := "a".toList, metadata := [] }] 2
      = [{ page_content := ("abc" : String).toList, metadata := [] },
         { page_content := "a".toList, metadata := [] }].flatMap
          (fun d => resplitChunk d 2) :=
  (C10_resplit_is_flatMap _ 2 (by decide)).1

/-- C3: an oversize chunk is replaced by its fixed-width slices at offsets
`0, MAX_CHARS, 2·MAX_CHARS, …` — `⌈L/MAX_CHARS⌉` of them before any drop,
all of width `MAX_CHARS` except possibly the last; their concatenation is
the original text, the kept ones are exactly the non-whitespace-only
slices, and the total non-whitespace character count is preserved. -/
theorem C3_resplit_lossless (doc : Document) (max_chars : Nat)
    (hmax : 0 < max_chars) (hov : max_chars < doc.page_content.length) :
    resplit_oversize_chunks [doc] max_chars = resplitChunk doc max_chars ∧
    (pySlices doc.page_content max_chars).length
      = (doc.page_content.length + max_chars - 1) / max_chars ∧
    (∀ (i : Nat) (hi : i < (pySlices doc.page_content max_chars).length),
      (pySlices doc.page_content max_chars).get ⟨i, hi⟩
        = (doc.page_content.drop (i * max_chars)).take max_chars ∧
      ((pySlices doc.page_content max_chars).get ⟨i, hi⟩).length ≤ max_chars ∧
      (i + 1 < (pySlices doc.page_content max_chars).length →
        ((pySlices doc.page_content max_chars).get ⟨i, hi⟩).length
          = max_chars)) ∧
    (pySlices doc.page_content max_chars).flatten = doc.page_content ∧
    (resplitChunk doc max_chars).map Document.page_content
      = (pySlices doc.page_content max_chars).filter stripTruthy ∧
    countNonSpace
        ((resplitChunk doc max_chars).map Document.page_content).flatten
      = countNonSpace doc.page_content := by
  have hmap : (resplitChunk doc max_chars).map Document.page_content
      = (pySlices doc.page_content max_chars).filter stripTruthy := by
    unfold resplitChunk
    rw [if_neg (not_le.mpr hov), List.map_map]
    exact List.map_id _
  refine ⟨?_, pySlices_count _ _, ?_, pySlices_join _ hmax _, hmap, ?_⟩
  · rw [resplit_oversize_chunks_eq_bind, List.flatMap_cons, List.flatMap_nil,
      List.append_nil]
  · intro i hi
    refine ⟨pySlices_getElem _ _ _ hi, ?_, ?_⟩
    · rw [pySlices_getElem_length]
      exact Nat.min_le_left _ _
    · exact fun hl =>
        pySlices_getElem_length_of_not_last _ _ hmax i hi hl
  · rw [hmap, countNonSpace_flatten_filter, pySlices_join _ hmax]

/-- Witness for C3 at a concrete input (with a whitespace-only middle
slice). -/
theorem C3_resplit_lossless_witness :
    (pySlices ("a    b".toList) 2).flatten = "a    b".toList ∧
    countNonSpace
        ((resplitChunk { page_content := "a    b".toList, metadata := [] }
          2).map Document.page_content).flatten
      = countNonSpace ("a    b".toList) :=
  ⟨(C3_resplit_lossless { page_content := "a    b".toList, metadata := [] } 2
      (by decide) (by decide)).2.2.2.1,
   (C3_resplit_lossless { page_content := "a    b".toList, metadata := [] } 2
      (by decide) (by decide)).2.2.2.2.2⟩

/-- C5: the driver partitions the chunks into consecutive batches of at most
50 (`⌈n/50⌉` of them, concatenating back to the chunk list, so each chunk is
in exactly one batch, in order); when batches `1..k-1` succeed and batch `k`
fails, the loop attempts exactly batches `1..k`, keeps `1..k-1` stored, and
surfaces the failure as `(k, e)` — no rollback, no retry, no later batch. -/
theorem C5_batch_driver {ε : Type} (chunks : List Document)
    (store : Nat → List Document → Option ε) (k : Nat) (e : ε)
    (hk1 : 1 ≤ k) (hk : k ≤ (pySlices chunks EMBED_BATCH_SIZE).length)
    (hsucc : ∀ (j : Nat) (hj : j < (pySlices chunks EMBED_BATCH_SIZE).length),
      j + 1 < k →
      store (j + 1) ((pySlices chunks EMBED_BATCH_SIZE).get ⟨j, hj⟩) = none)
    (hfail : store k
      ((pySlices chunks EMBED_BATCH_SIZE).get ⟨k - 1, by omega⟩) = some e) :
    (pySlices chunks EMBED_BATCH_SIZE).flatten = chunks ∧
    (∀ b ∈ pySlices chunks EMBED_BATCH_SIZE, b.length ≤ EMBED_BATCH_SIZE) ∧
    (pySlices chunks EMBED_BATCH_SIZE).length
      = (chunks.length + EMBED_BATCH_SIZE - 1) / EMBED_BATCH_SIZE ∧
    embedStoreLoop store chunks
      = ⟨List.range' 1 k, List.range' 1 (k - 1), some (k, e)⟩ := by
  refine ⟨pySlices_join _ (by decide) _,
    fun b hb => mem_pySlices_length_le hb, pySlices_count _ _, ?_⟩
  unfold embedStoreLoop
  have hklt : k - 1 < (pySlices chunks EMBED_BATCH_SIZE).length := by omega
  have hfail2 : store (1 + (k - 1))
      ((pySlices chunks EMBED_BATCH_SIZE).get ⟨k - 1, hklt⟩) = some e := by
    have h1 : 1 + (k - 1) = k := by omega
    rw [h1]
    exact hfail
  have hmain := embedBatches_first_fail store e
    (pySlices chunks EMBED_BATCH_SIZE) 1 (k - 1) hklt
    (fun j hj hjk => by
      have := hsucc j hj (by omega)
      have h1 : 1 + j = j + 1 := by omega
      rw [h1]
      exact this) hfail2
  rw [hmain]
  have h1 : k - 1 + 1 = k := by omega
  have h2 : 1 + (k - 1) = k := by omega
  rw [h1, h2]

/-- Witness for C5: the spec's scenario — 120 chunks, 3 batches (50, 50,
20), batch 2 fails; batch 1 remains stored, the failure surfaces as batch 2,
batch 3 is never attempted. -/
theorem C5_batch_driver_witness :
    embedStoreLoop (fun kk _ => if kk = 2 then some () else none)
        (List.replicate 120 { page_content := "x".toList, metadata := [] })
      = ⟨List.range' 1 2, List.range' 1 1, some (2, ())⟩ :=
  (C5_batch_driver
    (List.replicate 120 { page_content := "x".toList, metadata := [] })
    (fun kk _ => if kk = 2 then some () else none) 2 ()
    (by decide) (by rw [pySlices_count, List.length_replicate]; decide)
    (fun j hj hjlt => by
      have hj0 : j = 0 := by omega
      subst hj0
      rfl)
    (by rfl)).2.2.2

/-- C8 as stated fails on the code: the code strips and lower-cases the
`file_extension` value before testing and using it, whereas the claim uses
the field as it stands when "present and non-empty" (it names lower-casing
only for the source-derived branch). At `file_extension = ".MD"` the code
yields Markdown while the claim's function yields the default. -/
theorem C8_language_classifier_counterexample :
    get_language_from_metadata [("file_extension".toList, ".MD".toList)]
      = some Language.markdown ∧
    getLanguageClaimed [("file_extension".toList, ".MD".toList)] = none ∧
    get_language_from_metadata [("file_extension".toList, ".MD".toList)]
      ≠ getLanguageClaimed [("file_extension".toList, ".MD".toList)] := by
  decide

/-- C8 amended: `get_language_from_metadata` is a pure total function; the
`file_extension` value is stripped of surrounding whitespace and
lower-cased, and used when the result is non-empty; otherwise an extension
is derived from the stripped `source` (substring after the last `.`, cut at
the first `/` or `?`, lower-cased, `.`-prefixed) when `source` contains a
`.`; the fixed table maps `.md`/`.markdown` to Markdown and `.rst` to
RestructuredText, and every other case yields the default `none`. -/
theorem C8_language_classifier_amended (m : List (PyStr × PyStr)) :
    get_language_from_metadata m = getLanguageAmended m := by
  unfold get_language_from_metadata getLanguageAmended
  by_cases hfe : (pyLower (pyStrip (dictGetStr m "file_extension"))).isEmpty
  · by_cases hsrc : (pyStrip (dictGetStr m "source")).contains '.'
    · simp only [hfe, if_true, hsrc, List.isEmpty_cons, Bool.false_eq_true,
        if_false]
      rw [takeUntil_takeUntil]
    · have hmem : '.' ∉ pyStrip (dictGetStr m "source") := by
        simpa using hsrc
      have hfe2 : pyLower (pyStrip (dictGetStr m "file_extension")) = [] := by
        simpa using hfe
      simp [hfe2, hmem]
  · simp [hfe]

/-- C2: in the heap model, every chunk produced by the re-split slice loop
from one oversize parent owns its own copy of the parent's metadata: the
metadata references of two distinct produced chunks are distinct, distinct
from the parent's, each holds exactly the parent's key/value pairs, and
writing a key through one chunk's metadata leaves the sibling's metadata
and the parent's metadata unchanged. -/
theorem C2_metadata_copy (h : Heap) (doc : DocumentR) (max_chars : Nat)
    (i j : Nat) (ci cj : DocumentR)
    (hparent : doc.metadata < h.next)
    (hov : max_chars < doc.page_content.length)
    (hi : (resliceOversize h doc max_chars).1.get? i = some ci)
    (hj : (resliceOversize h doc max_chars).1.get? j = some cj)
    (hij : i ≠ j) :
    (resliceOversize h doc max_chars).2.mem ci.metadata
      = h.mem doc.metadata ∧
    (resliceOversize h doc max_chars).2.mem cj.metadata
      = h.mem doc.metadata ∧
    ci.metadata ≠ cj.metadata ∧
    ci.metadata ≠ doc.metadata ∧ cj.metadata ≠ doc.metadata ∧
    ∀ (key v : PyStr),
      ((resliceOversize h doc max_chars).2.write ci.metadata key v).mem
          cj.metadata
        = (resliceOversize h doc max_chars).2.mem cj.metadata ∧
      ((resliceOversize h doc max_chars).2.write ci.metadata key v).mem
          doc.metadata
        = (resliceOversize h doc max_chars).2.mem doc.metadata := by
  unfold resliceOversize at *
  obtain ⟨hnext, hpres, hdocs, hpw⟩ :=
    resliceGo_spec doc.metadata (pySlices doc.page_content max_chars) h
      hparent
  have hci : ci ∈ (resliceGo doc.metadata
      (pySlices doc.page_content max_chars) h).1 := List.get?_mem hi
  have hcj : cj ∈ (resliceGo doc.metadata
      (pySlices doc.page_content max_chars) h).1 := List.get?_mem hj
  obtain ⟨hci1, hci2, hci3⟩ := hdocs ci hci
  obtain ⟨hcj1, hcj2, hcj3⟩ := hdocs cj hcj
  obtain ⟨hilt, higet⟩ := List.get?_eq_some.mp hi
  obtain ⟨hjlt, hjget⟩ := List.get?_eq_some.mp hj
  have hlt := List.pairwise_iff_get.mp hpw
  have hmeta_ne : ci.metadata ≠ cj.metadata := by
    rcases Nat.lt_or_ge i j with hij2 | hij2
    · have hr := hlt ⟨i, hilt⟩ ⟨j, hjlt⟩ hij2
      rw [higet, hjget] at hr
      omega
    · have hji : j < i := by omega
      have hr := hlt ⟨j, hjlt⟩ ⟨i, hilt⟩ hji
      rw [higet, hjget] at hr
      omega
  refine ⟨hci3, hcj3, hmeta_ne, by omega, by omega, ?_⟩
  intro key v
  constructor
  · have hne : cj.metadata ≠ ci.metadata := hmeta_ne.symm
    simp [Heap.write, hne]
  · have hne : doc.metadata ≠ ci.metadata := by omega
    simp [Heap.write, hne]

/-- Witness for C2 at a concrete input: parent dict at reference 0 in a
one-cell heap, text `"ab"` re-split with limit 1 into chunks at fresh
references 1 and 2. -/
theorem C2_metadata_copy_witness :
    (resliceOversize ⟨1, fun _ => [("k".toList, "v".toList)]⟩
        ⟨"ab".toList, 0⟩ 1).2.mem 1
      = Heap.mem ⟨1, fun _ => [("k".toList, "v".toList)]⟩ 0 ∧
    (1 : Nat) ≠ (2 : Nat) :=
  ⟨(C2_metadata_copy ⟨1, fun _ => [("k".toList, "v".toList)]⟩
      ⟨"ab".toList, 0⟩ 1 0 1 ⟨"a".toList, 1⟩ ⟨"b".toList, 2⟩
      (by decide) (by decide) rfl rfl (by decide)).1,
   (C2_metadata_copy ⟨1, fun _ => [("k".toList, "v".toList)]⟩
      ⟨"ab".toList, 0⟩ 1 0 1 ⟨"a".toList, 1⟩ ⟨"b".toList, 2⟩
      (by decide) (by decide) rfl rfl (by decide)).2.2.1⟩

set_option maxRecDepth 100000 in
/-- C4: the spec's concrete scenario — one Markdown document whose body is a
1200-character whitespace-free run, `chunk_size = MAX_CHARS = 500`: Step 2
produces one 1200-character chunk (no separator occurs), Step 3 re-splits it
into chunks of lengths 500, 500, 200 in order, and the Step-4 scan finds
nothing. -/
theorem C4_markdown_concrete_scenario :
    chunk_documents_with_language_awareness
        [{ page_content := List.replicate 1200 'a',
           metadata := [("file_extension".toList, ".md".toList)] }] 500
      = [{ page_content := List.replicate 1200 'a',
           metadata := [("file_extension".toList, ".md".toList)] }] ∧
    (resplit_oversize_chunks
        (chunk_documents_with_language_awareness
          [{ page_content := List.replicate 1200 'a',
             metadata := [("file_extension".toList, ".md".toList)] }] 500)
        500).map (fun d => d.page_content.length) = [500, 500, 200] ∧
    oversizeIndices
        (resplit_oversize_chunks
          (chunk_documents_with_language_awareness
            [{ page_content := List.replicate 1200 'a',
               metadata := [("file_extension".toList, ".md".toList)] }] 500)
          500) 500 = [] := by
  refine ⟨?_, ?_, ?_⟩ <;> rfl

end KB
